import Mathlib

/-!
Verification development for the embedkv embedded key-value storage engine.

The definitions below are a shallow embedding of the Rust sources:
  * `Slot` and its operations come from src/slot.rs,
  * `FreeList` and its operations come from src/freelist.rs,
  * `Persister` and the four KV operations come from src/persist.rs.

Modelling conventions:
  * `usize` is modelled as `Nat`; the only subtractions the code performs are
    either guarded to be exact or are part of the rollback slip analysed below,
    where the exhibited inputs never underflow, so truncated subtraction is
    faithful at every input we evaluate.
  * The data file is modelled as a total byte store `Nat → Nat`; `write_all`
    updates a contiguous range, `read_exact_at` reads one.  Read errors are not
    modelled (after a successful write the bytes are present), and the write
    phase of `insert`/`update` takes an explicit `wfail` oracle standing for an
    I/O failure of `persist_value`.  The message carried by the resulting
    `IOError` is the fixed `ioMsg` string.
  * `BTreeMap<K, Slot>` is modelled as an association list; the code only uses
    `contains_key`/`get`/`insert`/`remove`, never iteration order.
  * Rust's `slice::binary_search` is modelled by the classic documented loop
    (`left`/`right` halving); `Slot`'s `Ord` compares by `space` only, the
    offset tie-break being an explicit todo in src/slot.rs.
  * Rust's stable `sort_by`/`sort` are modelled by `List.insertionSort`, which
    is also stable; a stable sort is extensionally determined by the input
    order and the comparator, so this is comparator-faithful.
  * `Vec::remove`/`Vec::insert` are `listRemoveAt`/`listInsertAt`; the indices
    the code passes are always `≤` length (established by the binary-search
    lemmas), where the models agree with the Rust operations.
  * `compact`'s `already_merged` index bookkeeping is modelled by removing an
    absorbed element from the remainder of the scan (`absorb`), which is the
    same traversal: an index pushed to `already_merged` is skipped both as a
    later anchor and as a later merge candidate.
-/

/-- `Slot` (src/slot.rs): a byte range of `space` bytes starting at offset
`cursor`. -/
structure Slot where
  space : Nat
  cursor : Nat
deriving DecidableEq

/-- `Slot::is_neighbour_of` (src/slot.rs): adjacency test, checked in both
directions, where the left-hand side of each direction must not start at
offset 0. -/
def Slot.is_neighbour_of (a b : Slot) : Bool :=
  (decide (0 < a.cursor) && decide (a.cursor = b.cursor + b.space)) ||
  (decide (0 < b.cursor) && decide (b.cursor = a.cursor + a.space))

/-- `Slot::merge_with` (src/slot.rs): union of two adjacent ranges. -/
def Slot.merge_with (a b : Slot) : Slot :=
  { cursor := min a.cursor b.cursor, space := a.space + b.space }

/-- End offset of a `Slot` (one past its last byte); a helper for proofs. -/
def Slot.stop (s : Slot) : Nat := s.cursor + s.space

/-- `FreeList` (src/freelist.rs): the reclaimed `Slot`s plus the running
`total_free_space` counter. -/
structure FreeList where
  list : List Slot
  total_free_space : Nat
deriving DecidableEq

/-- `Vec::remove` at an index (the element at `pos` is dropped, later elements
shift left).  The code only calls it with an in-bounds index. -/
def listRemoveAt : List Slot → Nat → List Slot
  | [], _ => []
  | _ :: t, 0 => t
  | h :: t, n + 1 => h :: listRemoveAt t n

/-- `Vec::insert` at an index (the element is placed at `pos`, later elements
shift right).  The code only calls it with an index `≤` length, where this
model agrees with Rust. -/
def listInsertAt : List Slot → Nat → Slot → List Slot
  | l, 0, a => a :: l
  | [], _ + 1, a => [a]
  | h :: t, n + 1, a => h :: listInsertAt t n a

/-- The classic `slice::binary_search` loop specialised to `Slot`'s `Ord`
(compare by `space` only): `Less` moves `left` past `mid`, `Greater` moves
`right` down to `mid`, `Equal` returns `.ok mid`; exhaustion returns
`.error left`.  The loop carries an explicit iteration budget (`fuel`) to be
structurally recursive: each iteration shrinks `right - left` by at least one,
so whenever `right - left ≤ fuel` the budget-exhausted branch coincides with
normal loop exit and the function is exactly the Rust loop. -/
def bsearchGo (l : List Slot) (t : Nat) : Nat → Nat → Nat → Except Nat Nat
  | 0, left, _ => .error left
  | fuel + 1, left, right =>
    if left < right then
      let mid := left + (right - left) / 2
      let sp := (l.getD mid ⟨0, 0⟩).space
      if sp < t then bsearchGo l t fuel (mid + 1) right
      else if t < sp then bsearchGo l t fuel left mid
      else .ok mid
    else .error left

/-- `self.list.binary_search(&value)` where `value` has space `t` (the `Ord`
of `Slot` ignores the cursor). -/
def bsearch (l : List Slot) (t : Nat) : Except Nat Nat :=
  bsearchGo l t l.length 0 l.length

/-- `FreeList::new` (src/freelist.rs). -/
def FreeList.new : FreeList := ⟨[], 0⟩

/-- `FreeList::insert_free_space` (src/freelist.rs): binary-search for the
insertion position (by `space` only) and insert there; bump the counter. -/
def FreeList.insert_free_space (fl : FreeList) (cursor space : Nat) : FreeList :=
  let value : Slot := ⟨space, cursor⟩
  let pos := match bsearch fl.list value.space with
    | .ok p => p
    | .error p => p
  ⟨listInsertAt fl.list pos value, fl.total_free_space + space⟩

/-- The body shared by both success cases of
`FreeList::retrieve_equal_or_bigger_than`: remove the slot at `pos`, reinsert
the split remainder at the same position when the removed slot was strictly
bigger, and return the claimed slot with its `space` overwritten to the
requested amount (line 128 of src/freelist.rs). -/
def retrieveAt (l : List Slot) (expected : Slot) (pos : Nat) : Slot × List Slot :=
  let claimed := l.getD pos ⟨0, 0⟩
  let l₁ := listRemoveAt l pos
  let l₂ := if expected.space < claimed.space then
      listInsertAt l₁ pos ⟨claimed.space - expected.space, claimed.cursor + expected.space⟩
    else l₁
  (⟨expected.space, claimed.cursor⟩, l₂)

/-- `FreeList::retrieve_equal_or_bigger_than` (src/freelist.rs): `Ok(pos)`
proceeds, `Err(pos)` proceeds only when `pos` is in bounds, otherwise `None`.
The mutation of `self.list` is returned alongside the claimed slot. -/
def FreeList.retrieve_equal_or_bigger_than (l : List Slot) (expected : Slot) :
    Option (Slot × List Slot) :=
  match bsearch l expected.space with
  | .ok pos => some (retrieveAt l expected pos)
  | .error pos => if pos < l.length then some (retrieveAt l expected pos) else none

/-- `FreeList::retrieve_free_space` (src/freelist.rs): on a hit, subtract the
claimed slot's (already overwritten) `space` from the counter and return its
cursor. -/
def FreeList.retrieve_free_space (fl : FreeList) (space : Nat) : Option Nat × FreeList :=
  match FreeList.retrieve_equal_or_bigger_than fl.list ⟨space, 0⟩ with
  | some (val, l') => (some val.cursor, ⟨l', fl.total_free_space - val.space⟩)
  | none => (none, fl)

/-- The inner scan of `FreeList::compact` for one anchor: walk the remaining
elements in order, absorbing (and dropping) every one adjacent to the running
merged slot; unabsorbed elements keep their order.  This realises the
`already_merged` bookkeeping of the source by removal. -/
def absorb (tmp : Slot) : List Slot → Slot × List Slot
  | [] => (tmp, [])
  | b :: rest =>
    if tmp.is_neighbour_of b then absorb (tmp.merge_with b) rest
    else
      let p := absorb tmp rest
      (p.1, b :: p.2)

/-- The outer loop of the merge phase of `FreeList::compact`, carrying an
anchor budget for structural recursion: `absorb` never lengthens the
remainder, so with `fuel` at least the list length the budget-exhausted branch
is unreachable and this is exactly the source's anchor loop. -/
def mergePassGo : Nat → List Slot → List Slot
  | _, [] => []
  | 0, _ :: _ => []
  | fuel + 1, a :: rest =>
    let p := absorb a rest
    p.1 :: mergePassGo fuel p.2

/-- The merge phase of `FreeList::compact`: each not-yet-absorbed element in
turn becomes an anchor and absorbs its transitive neighbours among the later
elements. -/
def mergePass (l : List Slot) : List Slot := mergePassGo l.length l

/-- Comparator of `sort_by(|a, b| a.cursor.cmp(&b.cursor))`. -/
def rCursor (a b : Slot) : Prop := a.cursor ≤ b.cursor

/-- Comparator of `sort()` under `Slot`'s `Ord` (by `space` only). -/
def rSpace (a b : Slot) : Prop := a.space ≤ b.space

instance (a b : Slot) : Decidable (rCursor a b) :=
  inferInstanceAs (Decidable (a.cursor ≤ b.cursor))

instance (a b : Slot) : Decidable (rSpace a b) :=
  inferInstanceAs (Decidable (a.space ≤ b.space))

instance : IsTotal Slot rCursor := ⟨fun a b => Nat.le_total a.cursor b.cursor⟩

instance : IsTrans Slot rCursor := ⟨fun _ _ _ h h' => Nat.le_trans h h'⟩

instance : IsTotal Slot rSpace := ⟨fun a b => Nat.le_total a.space b.space⟩

instance : IsTrans Slot rSpace := ⟨fun _ _ _ h h' => Nat.le_trans h h'⟩

/-- `self.list.sort_by(|a, b| a.cursor.cmp(&b.cursor))`, a stable sort. -/
def sortByCursor (l : List Slot) : List Slot := List.insertionSort rCursor l

/-- `new_list.sort()`, a stable sort under `Slot`'s space-only `Ord`. -/
def sortBySpace (l : List Slot) : List Slot := List.insertionSort rSpace l

/-- The full `FreeList::compact` pipeline on the underlying list: sort by
cursor, run the merge phase, then re-sort by the space order. -/
def FreeList.compactList (l : List Slot) : List Slot :=
  sortBySpace (mergePass (sortByCursor l))

/-- `FreeList::compact` (src/freelist.rs); `total_free_space` is not touched. -/
def FreeList.compact (fl : FreeList) : FreeList :=
  ⟨FreeList.compactList fl.list, fl.total_free_space⟩

/-- The gap-scanning loop of `FreeList::new_from_index` for indices `i > 0`:
given the previous occupied slot, emit (slot, counter contribution) pairs for
every later occupied slot that does not sit at
`previous.space + previous.cursor + 1`.  The emitted span and the counter
increment copy the source arithmetic verbatim (off-by-ones included). -/
def gapsAfter (previous : Slot) : List Slot → List Slot × Nat
  | [] => ([], 0)
  | current :: rest =>
    let tail := gapsAfter current rest
    if current.cursor ≠ previous.space + previous.cursor + 1 then
      (⟨current.cursor - previous.cursor, previous.cursor + previous.space + 1⟩ :: tail.1,
        (current.cursor - previous.cursor) + tail.2)
    else tail

/-- `FreeList::new_from_index` (src/freelist.rs): sort the occupied slots by
cursor, emit a leading gap when the first slot starts past 0, then scan the
rest with `gapsAfter`. -/
def FreeList.new_from_index (used_slot_list : List Slot) : FreeList :=
  match sortByCursor used_slot_list with
  | [] => ⟨[], 0⟩
  | first :: rest =>
    let head : List Slot × Nat :=
      if 0 < first.cursor then ([⟨first.cursor - 1, 0⟩], first.cursor - 1) else ([], 0)
    let tail := gapsAfter first rest
    ⟨head.1 ++ tail.1, head.2 + tail.2⟩

/-- `KVError` (src/persist.rs). -/
inductive KVError where
  | KeyDoesNotExist
  | KeyAlreadyExist
  | IOError (msg : String)
deriving DecidableEq

/-- The fixed message carried by the modelled write-failure `IOError`. -/
def ioMsg : String := "io error"

/-- `Persister` (src/persist.rs): free list, in-memory index, append cursor
and the data file (the `FileHeader` collaborator reduced to its byte store). -/
structure Persister (K : Type) where
  freelist : FreeList
  index : List (K × Slot)
  last_cursor : Nat
  file : Nat → Nat

/-- `BTreeMap::get`. -/
def idxGet {K : Type} [DecidableEq K] (key : K) : List (K × Slot) → Option Slot
  | [] => none
  | (k, s) :: rest => if key = k then some s else idxGet key rest

/-- `BTreeMap::insert` (replace the binding when present, add it otherwise). -/
def idxInsert {K : Type} [DecidableEq K] (key : K) (s : Slot) :
    List (K × Slot) → List (K × Slot)
  | [] => [(key, s)]
  | (k, s') :: rest =>
    if key = k then (key, s) :: rest else (k, s') :: idxInsert key s rest

/-- `BTreeMap::remove`. -/
def idxRemove {K : Type} [DecidableEq K] (key : K) :
    List (K × Slot) → List (K × Slot)
  | [] => []
  | (k, s') :: rest => if key = k then rest else (k, s') :: idxRemove key rest

/-- `persist_value` on success (src/persist.rs): `seek` + `write_all` of the
data at the given cursor. -/
def writeAll (file : Nat → Nat) (data : List Nat) (cursor : Nat) : Nat → Nat :=
  fun i => if cursor ≤ i ∧ i < cursor + data.length then data.getD (i - cursor) 0 else file i

/-- `Persister::retrieve_value` (src/persist.rs): read exactly `space` bytes
starting at `cursor`. -/
def retrieve_value (file : Nat → Nat) (cursor space : Nat) : List Nat :=
  (List.range space).map fun i => file (cursor + i)

/-- `Persister::new` (src/persist.rs): empty free list, empty index, cursor 0,
freshly truncated (all-zero) data file. -/
def Persister.new (K : Type) : Persister K :=
  ⟨FreeList.new, [], 0, fun _ => 0⟩

/-- `Persister::insert_kv` (src/persist.rs).  `wfail` is the oracle for the
write phase failing.  The rollback branch copies the source verbatim:
`if cursor == self.last_cursor - value.len() { self.last_cursor = cursor - value.len() }`,
evaluated against the already-advanced cursor. -/
def Persister.insert_kv {K : Type} [DecidableEq K] (p : Persister K) (key : K)
    (value : List Nat) (wfail : Bool) : Option KVError × Persister K :=
  if (idxGet key p.index).isSome then (some .KeyAlreadyExist, p)
  else if 0 < value.length then
    let alloc := p.freelist.retrieve_free_space value.length
    let cursor := match alloc.1 with
      | some c => c
      | none => p.last_cursor
    let lc := match alloc.1 with
      | some _ => p.last_cursor
      | none => p.last_cursor + value.length
    if wfail then
      let lc₂ := if cursor = lc - value.length then cursor - value.length else lc
      (some (.IOError ioMsg), { p with freelist := alloc.2, last_cursor := lc₂ })
    else
      (none,
        { freelist := alloc.2,
          index := idxInsert key ⟨value.length, cursor⟩ p.index,
          last_cursor := lc,
          file := writeAll p.file value cursor })
  else
    (none, { p with index := idxInsert key ⟨0, 0⟩ p.index })

/-- `Persister::get_value` (src/persist.rs). -/
def Persister.get_value {K : Type} [DecidableEq K] (p : Persister K) (key : K) :
    Except KVError (List Nat) :=
  match idxGet key p.index with
  | some val => .ok (retrieve_value p.file val.cursor val.space)
  | none => .error .KeyDoesNotExist

/-- `Persister::update_value` (src/persist.rs).  The result of `persist_value`
is discarded by the source (`let _ = ...`), so `wfail` only decides whether the
file content changes; no error is reported for it. -/
def Persister.update_value {K : Type} [DecidableEq K] (p : Persister K) (key : K)
    (value : List Nat) (wfail : Bool) : Option KVError × Persister K :=
  match idxGet key p.index with
  | none => (some .KeyDoesNotExist, p)
  | some slot₀ =>
    let grown : Slot × FreeList × Nat :=
      if slot₀.space < value.length then
        let fl₁ := p.freelist.insert_free_space slot₀.cursor slot₀.space
        let lc₁ := if slot₀.cursor + slot₀.space = p.last_cursor then slot₀.cursor
          else p.last_cursor
        let alloc := fl₁.retrieve_free_space value.length
        match alloc.1 with
        | some val =>
          (⟨slot₀.space, val⟩, alloc.2, if lc₁ ≤ val then val + value.length else lc₁)
        | none => (⟨slot₀.space, lc₁⟩, alloc.2, lc₁ + value.length)
      else (slot₀, p.freelist, p.last_cursor)
    let slot₁ := grown.1
    let fl₂ := grown.2.1
    let lc₂ := grown.2.2
    let fl₃ := if value.length < slot₁.space then
        fl₂.insert_free_space (slot₁.cursor + value.length) (slot₁.space - value.length)
      else fl₂
    let slot₂ : Slot := ⟨value.length, slot₁.cursor⟩
    let file₂ := if wfail then p.file else writeAll p.file value slot₂.cursor
    (none,
      { freelist := fl₃,
        index := idxInsert key slot₂ p.index,
        last_cursor := lc₂,
        file := file₂ })

/-- `Persister::delete_kv` (src/persist.rs): shrink `last_cursor` when the
deleted slot is trailing, release the slot into the free list (always), and
remove the key from the index. -/
def Persister.delete_kv {K : Type} [DecidableEq K] (p : Persister K) (key : K) :
    Option KVError × Persister K :=
  match idxGet key p.index with
  | none => (some .KeyDoesNotExist, p)
  | some val =>
    let lc := if p.last_cursor = val.cursor + val.space then val.cursor else p.last_cursor
    let fl := p.freelist.insert_free_space val.cursor val.space
    (none, { p with freelist := fl, last_cursor := lc, index := idxRemove key p.index })

/-- Sum of the `space` fields of a list of slots; the quantity the
`total_free_space` counter is specified to track. -/
def sumSpaces (l : List Slot) : Nat := (l.map Slot.space).sum

/-- The conservation predicate of the spec: the counter equals the sum of the
member slots' lengths. -/
def flInv (fl : FreeList) : Prop := fl.total_free_space = sumSpaces fl.list

instance (fl : FreeList) : Decidable (flInv fl) :=
  inferInstanceAs (Decidable (fl.total_free_space = sumSpaces fl.list))

/-- The spec's total order on Spans: by length, ties by offset. -/
def lexSC (a b : Slot) : Prop :=
  a.space < b.space ∨ (a.space = b.space ∧ a.cursor ≤ b.cursor)

/-- The offset-major companion order (offset, ties by length); used to track
stability through the two sorts of `compact`. -/
def lexCS (a b : Slot) : Prop :=
  a.cursor < b.cursor ∨ (a.cursor = b.cursor ∧ a.space ≤ b.space)

instance (a b : Slot) : Decidable (lexSC a b) :=
  inferInstanceAs (Decidable (a.space < b.space ∨ (a.space = b.space ∧ a.cursor ≤ b.cursor)))

instance (a b : Slot) : Decidable (lexCS a b) :=
  inferInstanceAs (Decidable (a.cursor < b.cursor ∨ (a.cursor = b.cursor ∧ a.space ≤ b.space)))

instance : IsAntisymm Slot lexSC where
  antisymm a b hab hba := by
    cases a
    cases b
    simp only [lexSC] at hab hba
    simp only [Slot.mk.injEq]
    omega

/-- A byte offset lying inside a Span's occupied range. -/
def memSpan (i : Nat) (s : Slot) : Prop := s.cursor ≤ i ∧ i < s.cursor + s.space

instance (i : Nat) (s : Slot) : Decidable (memSpan i s) :=
  inferInstanceAs (Decidable (s.cursor ≤ i ∧ i < s.cursor + s.space))

/-- Store used by the C1 failing run: insert key 1 with a 3-byte value. -/
def c1s1 : Persister Nat := ((Persister.new Nat).insert_kv 1 [1, 2, 3] false).2

/-- C1 failing run, step 2: delete key 1 (a trailing delete). -/
def c1s2 : Persister Nat := (c1s1.delete_kv 1).2

/-- C1 failing run, step 3: insert key 2 with a 2-byte value (reuses the freed
span at offset 0 without touching `last_cursor`). -/
def c1s3 : Persister Nat := (c1s2.insert_kv 2 [4, 5] false).2

/-- C1 failing run, step 4: insert key 3 with a 3-byte value (appends at the
stale `last_cursor = 0`, on top of key 2). -/
def c1s4 : Persister Nat := (c1s3.insert_kv 3 [6, 7, 8] false).2

/-- Store with one key occupying bytes 0..3, used by the C2, C3 and C8
concrete runs. -/
def pOne : Persister Nat := ((Persister.new Nat).insert_kv 1 [1, 2, 3] false).2

/-- A free list sorted by the (length, offset) total order, used by the C4
counterexample. -/
def c4fl : FreeList := ⟨[⟨4, 0⟩, ⟨6, 10⟩], 10⟩

/-- Looking up a key right after inserting it yields the inserted slot. -/
theorem idxGet_idxInsert_self {K : Type} [DecidableEq K] (key : K) (s : Slot)
    (l : List (K × Slot)) : idxGet key (idxInsert key s l) = some s := by
  induction l with
  | nil => simp [idxInsert, idxGet]
  | cons kv rest ih =>
    obtain ⟨k, s'⟩ := kv
    by_cases hk : key = k
    · simp [idxInsert, idxGet, hk]
    · simp [idxInsert, idxGet, hk, ih]

/-- Inserting at any position is a permutation of consing. -/
theorem listInsertAt_perm (l : List Slot) (pos : Nat) (a : Slot) :
    (listInsertAt l pos a).Perm (a :: l) := by
  induction l generalizing pos with
  | nil =>
    cases pos <;> simp [listInsertAt]
  | cons h t ih =>
    cases pos with
    | zero => simp [listInsertAt]
    | succ n =>
      have h₁ : listInsertAt (h :: t) (n + 1) a = h :: listInsertAt t n a := rfl
      rw [h₁]
      exact ((ih n).cons h).trans (List.Perm.swap a h t)

/-- `sumSpaces` over an insertion adds the inserted slot's space. -/
theorem sumSpaces_listInsertAt (l : List Slot) (pos : Nat) (a : Slot) :
    sumSpaces (listInsertAt l pos a) = a.space + sumSpaces l := by
  have h := (listInsertAt_perm l pos a).map Slot.space
  unfold sumSpaces
  rw [h.sum_eq]
  simp

/-- Removing an in-bounds element splits `sumSpaces`. -/
theorem sumSpaces_listRemoveAt (l : List Slot) (pos : Nat) (h : pos < l.length) :
    sumSpaces l = (l.getD pos ⟨0, 0⟩).space + sumSpaces (listRemoveAt l pos) := by
  induction l generalizing pos with
  | nil => simp at h
  | cons b t ih =>
    cases pos with
    | zero => simp [listRemoveAt, sumSpaces, List.getD]
    | succ n =>
      have hn : n < t.length := by simpa using h
      have := ih n hn
      simp only [listRemoveAt, sumSpaces, List.map_cons, List.sum_cons, List.getD_cons_succ]
      unfold sumSpaces at this
      omega

/-- Reading back `value.length` bytes from where they were just written
returns the value, byte for byte. -/
theorem retrieve_writeAll (file : Nat → Nat) (v : List Nat) (cursor : Nat) :
    retrieve_value (writeAll file v cursor) cursor v.length = v := by
  unfold retrieve_value writeAll
  apply List.ext_getElem
  · simp
  · intro i h₁ h₂
    simp only [List.getElem_map, List.getElem_range]
    rw [if_pos]
    · have h₃ : cursor + i - cursor = i := by omega
      rw [h₃, List.getD_eq_getElem v 0 h₂]
    · exact ⟨Nat.le_add_right _ _, by omega⟩

/-- C10: inserting an empty value under an absent key records the Span
`{offset 0, length 0}` in the Index and changes nothing else: the FreeList is
not consulted, `last_cursor` is unchanged, and the file is untouched. -/
theorem c10_empty_insert {K : Type} [DecidableEq K] (p : Persister K) (key : K)
    (wfail : Bool) (h : idxGet key p.index = none) :
    p.insert_kv key [] wfail = (none, { p with index := idxInsert key ⟨0, 0⟩ p.index }) := by
  simp [Persister.insert_kv, h]

/-- C10 witness: the empty-value insert theorem evaluated on a store whose
cursor and free list are nonempty. -/
theorem c10_empty_insert_witness :
    idxGet 5 pOne.index = none
    ∧ pOne.insert_kv 5 [] true = (none, { pOne with index := idxInsert 5 ⟨0, 0⟩ pOne.index }) :=
  ⟨by decide, c10_empty_insert pOne 5 true (by decide)⟩

/-- C7: inserting an already-indexed key fails with `KeyAlreadyExist` and
returns the state unchanged; `get`/`update`/`delete` on an unknown key fail
with `KeyDoesNotExist` and return the state unchanged. -/
theorem c7_error_paths_pure {K : Type} [DecidableEq K] :
    (∀ (p : Persister K) (key : K) (s : Slot) (value : List Nat) (wfail : Bool),
      idxGet key p.index = some s →
      p.insert_kv key value wfail = (some KVError.KeyAlreadyExist, p))
    ∧ (∀ (p : Persister K) (key : K),
      idxGet key p.index = none → p.get_value key = .error KVError.KeyDoesNotExist)
    ∧ (∀ (p : Persister K) (key : K) (value : List Nat) (wfail : Bool),
      idxGet key p.index = none →
      p.update_value key value wfail = (some KVError.KeyDoesNotExist, p))
    ∧ (∀ (p : Persister K) (key : K),
      idxGet key p.index = none → p.delete_kv key = (some KVError.KeyDoesNotExist, p)) := by
  refine ⟨fun p key s value wfail h => ?_, fun p key h => ?_, fun p key value wfail h => ?_,
    fun p key h => ?_⟩
  · simp [Persister.insert_kv, h]
  · simp [Persister.get_value, h]
  · simp [Persister.update_value, h]
  · simp [Persister.delete_kv, h]

/-- C7 witness: the four error paths evaluated on concrete stores. -/
theorem c7_error_paths_witness :
    pOne.insert_kv 1 [9] false = (some KVError.KeyAlreadyExist, pOne)
    ∧ (Persister.new Nat).get_value 7 = .error KVError.KeyDoesNotExist
    ∧ (Persister.new Nat).update_value 7 [1] false = (some KVError.KeyDoesNotExist, Persister.new Nat)
    ∧ (Persister.new Nat).delete_kv 7 = (some KVError.KeyDoesNotExist, Persister.new Nat) :=
  ⟨c7_error_paths_pure.1 pOne 1 ⟨3, 0⟩ [9] false (by decide),
   c7_error_paths_pure.2.1 (Persister.new Nat) 7 rfl,
   c7_error_paths_pure.2.2.1 (Persister.new Nat) 7 [1] false rfl,
   c7_error_paths_pure.2.2.2 (Persister.new Nat) 7 rfl⟩

/-- C2 counterexample: deleting key 1, whose Span `{offset 0, length 3}` is
the trailing-most allocated range (`last_cursor = 3`), both shrinks
`last_cursor` to 0 and records the Span in the FreeList — the claim's
"exactly one of the two happens, never both" is false on the code. -/
theorem c2_counterexample :
    idxGet 1 pOne.index = some ⟨3, 0⟩
    ∧ pOne.last_cursor = 3
    ∧ (pOne.delete_kv 1).2.last_cursor = 0
    ∧ (pOne.delete_kv 1).2.freelist.list = [⟨3, 0⟩] := by decide

/-- C2 (amended): deleting an existing key always releases its Span to the
FreeList (the new list is the old list plus that Span, and the counter grows
by its length); additionally, exactly when the Span is the trailing-most
allocated range, `last_cursor` shrinks to the Span's offset.  The key is
removed and the file is untouched. -/
theorem c2_delete_releases_and_shrinks {K : Type} [DecidableEq K] (p : Persister K)
    (key : K) (slot : Slot) (h : idxGet key p.index = some slot) :
    (p.delete_kv key).1 = none
    ∧ (p.delete_kv key).2.last_cursor =
        (if p.last_cursor = slot.cursor + slot.space then slot.cursor else p.last_cursor)
    ∧ (p.delete_kv key).2.freelist.list.Perm (⟨slot.space, slot.cursor⟩ :: p.freelist.list)
    ∧ (p.delete_kv key).2.freelist.total_free_space = p.freelist.total_free_space + slot.space
    ∧ (p.delete_kv key).2.index = idxRemove key p.index
    ∧ (p.delete_kv key).2.file = p.file := by
  refine ⟨?_, ?_, ?_, ?_, ?_, ?_⟩
  · simp [Persister.delete_kv, h]
  · simp [Persister.delete_kv, h]
  · simp only [Persister.delete_kv, h, FreeList.insert_free_space]
    exact listInsertAt_perm _ _ _
  · simp [Persister.delete_kv, h, FreeList.insert_free_space]
  · simp [Persister.delete_kv, h]
  · simp [Persister.delete_kv, h]

/-- C2 witness: the amended delete theorem evaluated on the one-key store,
where the deleted Span is trailing. -/
theorem c2_delete_witness :
    (pOne.delete_kv 1).1 = none
    ∧ (pOne.delete_kv 1).2.last_cursor =
        (if pOne.last_cursor = (0 : Nat) + 3 then 0 else pOne.last_cursor)
    ∧ (pOne.delete_kv 1).2.freelist.list.Perm (⟨3, 0⟩ :: pOne.freelist.list)
    ∧ (pOne.delete_kv 1).2.freelist.total_free_space = pOne.freelist.total_free_space + 3
    ∧ (pOne.delete_kv 1).2.index = idxRemove 1 pOne.index
    ∧ (pOne.delete_kv 1).2.file = pOne.file :=
  c2_delete_releases_and_shrinks pOne 1 ⟨3, 0⟩ (by decide)

/-- C3: on the one-key store (`last_cursor = 3`), inserting a 2-byte value by
appending (cursor 3, cursor advanced to 5) whose write fails returns an I/O
error but sets `last_cursor` to `cursor - value.len() = 1` instead of
restoring the pre-operation value 3 — the rollback subtracts `value.len()`
from the wrong base. -/
theorem c3_rollback_bug :
    pOne.last_cursor = 3
    ∧ (pOne.insert_kv 2 [4, 5] true).1 = some (KVError.IOError ioMsg)
    ∧ (pOne.insert_kv 2 [4, 5] true).2.last_cursor = 1 := by decide

/-- C1: the run insert 1 ↦ 3 bytes, delete 1 (trailing delete: the cursor
shrinks to 0 *and* the span is recorded free), insert 2 ↦ 2 bytes (reuses
offset 0 without advancing `last_cursor`), insert 3 ↦ 3 bytes (appends at the
stale `last_cursor = 0`) leaves keys 2 and 3 with occupied Spans that both
contain byte offset 0 — the no-overlap invariant fails. -/
theorem c1_no_overlap_violated :
    idxGet 2 c1s4.index = some ⟨2, 0⟩
    ∧ idxGet 3 c1s4.index = some ⟨3, 0⟩
    ∧ memSpan 0 ⟨2, 0⟩
    ∧ memSpan 0 ⟨3, 0⟩
    ∧ c1s4.get_value 2 = .ok [6, 7] :=
  ⟨by decide, by decide, by decide, by decide, rfl⟩

/-- C8 counterexample: on the one-key store, updating key 1 with a write that
fails reports success (`none`), not an I/O error — the write result is
discarded by `update_value`. -/
theorem c8_counterexample :
    idxGet 1 pOne.index = some ⟨3, 0⟩
    ∧ (pOne.update_value 1 [9, 9, 9] true).1 = none
    ∧ ∀ m, (pOne.update_value 1 [9, 9, 9] true).1 ≠ some (KVError.IOError m) := by
  have hnone : (pOne.update_value 1 [9, 9, 9] true).1 = none := by decide
  refine ⟨by decide, hnone, fun m h => ?_⟩
  rw [hnone] at h
  exact Option.noConfusion h

/-- C8 (amended): `update_value` on an existing key always reports success,
whether or not the write fails: the result of the write is silently
discarded, never propagated. -/
theorem c8_update_swallows_write_error {K : Type} [DecidableEq K] (p : Persister K)
    (key : K) (value : List Nat) (wfail : Bool) (slot : Slot)
    (h : idxGet key p.index = some slot) :
    (p.update_value key value wfail).1 = none := by
  simp [Persister.update_value, h]

/-- C8 witness: the amended update theorem evaluated on the one-key store with
a failing write. -/
theorem c8_update_witness : (pOne.update_value 1 [7] true).1 = none :=
  c8_update_swallows_write_error pOne 1 [7] true ⟨3, 0⟩ (by decide)

/-- C5: after a successful insert of any value (empty included) under an
absent key, `get` returns exactly that value, byte for byte. -/
theorem c5_roundtrip {K : Type} [DecidableEq K] (p : Persister K) (key : K)
    (v : List Nat) (wfail : Bool) (habs : idxGet key p.index = none)
    (hok : (p.insert_kv key v wfail).1 = none) :
    (p.insert_kv key v wfail).2.get_value key = .ok v := by
  by_cases hv : 0 < v.length
  · by_cases hw : wfail
    · exfalso
      simp [Persister.insert_kv, habs, hv, hw] at hok
    · simp only [Persister.insert_kv, habs, Option.isSome_none, Bool.false_eq_true, if_false,
        hv, if_true, hw]
      simp [Persister.get_value, idxGet_idxInsert_self, retrieve_writeAll]
  · have hv0 : v = [] := List.eq_nil_of_length_eq_zero (by omega)
    subst hv0
    simp [Persister.insert_kv, habs, Persister.get_value, idxGet_idxInsert_self,
      retrieve_value]

/-- C5 witness: round-trip evaluated on a fresh store for a 2-byte value. -/
theorem c5_roundtrip_witness :
    idxGet 0 (Persister.new Nat).index = none
    ∧ ((Persister.new Nat).insert_kv 0 [7, 8] false).1 = none
    ∧ ((Persister.new Nat).insert_kv 0 [7, 8] false).2.get_value 0 = .ok [7, 8] :=
  ⟨rfl, rfl, c5_roundtrip (Persister.new Nat) 0 [7, 8] false rfl rfl⟩

/-- A successful binary search returns an in-bounds index holding exactly the
searched space.  Holds for any list, sorted or not. -/
theorem bsearchGo_ok (l : List Slot) (t : Nat) :
    ∀ (fuel left right p : Nat), right ≤ l.length →
      bsearchGo l t fuel left right = .ok p →
      p < l.length ∧ (l.getD p ⟨0, 0⟩).space = t := by
  intro fuel
  induction fuel with
  | zero => intro left right p _ h; simp [bsearchGo] at h
  | succ fuel ih =>
    intro left right p hright h
    by_cases hlr : left < right
    · rw [bsearchGo, if_pos hlr] at h
      set mid := left + (right - left) / 2 with hmid
      have hmr : mid < right := by omega
      by_cases h₁ : (l.getD mid ⟨0, 0⟩).space < t
      · rw [if_pos h₁] at h
        exact ih (mid + 1) right p hright h
      · rw [if_neg h₁] at h
        by_cases h₂ : t < (l.getD mid ⟨0, 0⟩).space
        · rw [if_pos h₂] at h
          exact ih left mid p (by omega) h
        · rw [if_neg h₂] at h
          injection h with h₃
          subst h₃
          exact ⟨by omega, by omega⟩
    · rw [bsearchGo, if_neg hlr] at h
      cases h

/-- A failed binary search either returns the initial `right` bound or an
in-bounds index holding a space strictly greater than the searched one.  Holds
for any list, sorted or not. -/
theorem bsearchGo_err (l : List Slot) (t : Nat) :
    ∀ (fuel left right p : Nat), right - left ≤ fuel → left ≤ right → right ≤ l.length →
      bsearchGo l t fuel left right = .error p →
      p = right ∨ (p < l.length ∧ t < (l.getD p ⟨0, 0⟩).space) := by
  intro fuel
  induction fuel with
  | zero =>
    intro left right p hfuel hlr _ h
    rw [bsearchGo] at h
    cases h
    left
    omega
  | succ fuel ih =>
    intro left right p hfuel hlr hright h
    by_cases hlt : left < right
    · rw [bsearchGo, if_pos hlt] at h
      set mid := left + (right - left) / 2 with hmid
      have hmr : mid < right := by omega
      by_cases h₁ : (l.getD mid ⟨0, 0⟩).space < t
      · rw [if_pos h₁] at h
        exact ih (mid + 1) right p (by omega) (by omega) hright h
      · rw [if_neg h₁] at h
        by_cases h₂ : t < (l.getD mid ⟨0, 0⟩).space
        · rw [if_pos h₂] at h
          rcases ih left mid p (by omega) (by omega) (by omega) h with hp | hp
          · right
            subst hp
            exact ⟨by omega, h₂⟩
          · right
            exact hp
        · rw [if_neg h₂] at h
          cases h
    · rw [bsearchGo, if_neg hlt] at h
      cases h
      left
      omega

/-- On a space-sorted list, every index left of a failed search's result holds
a space strictly below the searched one. -/
theorem bsearchGo_err_below (l : List Slot) (t : Nat) (hs : l.Pairwise rSpace) :
    ∀ (fuel left right p : Nat), right ≤ l.length →
      (∀ i, i < left → i < l.length → (l.getD i ⟨0, 0⟩).space < t) →
      bsearchGo l t fuel left right = .error p →
      ∀ i, i < p → i < l.length → (l.getD i ⟨0, 0⟩).space < t := by
  intro fuel
  induction fuel with
  | zero =>
    intro left right p _ hbelow h
    rw [bsearchGo] at h
    cases h
    exact hbelow
  | succ fuel ih =>
    intro left right p hright hbelow h
    by_cases hlt : left < right
    · rw [bsearchGo, if_pos hlt] at h
      set mid := left + (right - left) / 2 with hmid
      have hmr : mid < right := by omega
      have hml : mid < l.length := by omega
      by_cases h₁ : (l.getD mid ⟨0, 0⟩).space < t
      · rw [if_pos h₁] at h
        refine ih (mid + 1) right p hright ?_ h
        intro i hi hil
        rcases Nat.lt_or_ge i mid with him | him
        · have hrel := List.pairwise_iff_get.mp hs ⟨i, hil⟩ ⟨mid, hml⟩ him
          rw [List.getD_eq_getElem l ⟨0, 0⟩ hil, List.getD_eq_getElem l ⟨0, 0⟩ hml] at *
          unfold rSpace at hrel
          simp only [List.get_eq_getElem] at hrel
          omega
        · have : i = mid := by omega
          subst this
          exact h₁
      · rw [if_neg h₁] at h
        by_cases h₂ : t < (l.getD mid ⟨0, 0⟩).space
        · rw [if_pos h₂] at h
          exact ih left mid p (by omega) hbelow h
        · rw [if_neg h₂] at h
          cases h
    · rw [bsearchGo, if_neg hlt] at h
      cases h
      exact hbelow

/-- `bsearch` success: in-bounds index with the exact space. -/
theorem bsearch_ok {l : List Slot} {t p : Nat} (h : bsearch l t = .ok p) :
    p < l.length ∧ (l.getD p ⟨0, 0⟩).space = t :=
  bsearchGo_ok l t l.length 0 l.length p (Nat.le_refl _) h

/-- `bsearch` failure: the insertion point is the length, or an in-bounds
index with a strictly bigger space. -/
theorem bsearch_err {l : List Slot} {t p : Nat} (h : bsearch l t = .error p) :
    p = l.length ∨ (p < l.length ∧ t < (l.getD p ⟨0, 0⟩).space) :=
  bsearchGo_err l t l.length 0 l.length p (by omega) (Nat.zero_le _) (Nat.le_refl _) h

/-- `bsearch` failure on a space-sorted list: everything left of the insertion
point has a space strictly below the target. -/
theorem bsearch_err_below {l : List Slot} {t p : Nat} (hs : l.Pairwise rSpace)
    (h : bsearch l t = .error p) :
    ∀ i, i < p → i < l.length → (l.getD i ⟨0, 0⟩).space < t :=
  bsearchGo_err_below l t hs l.length 0 l.length p (Nat.le_refl _)
    (fun i hi _ => absurd hi (Nat.not_lt_zero i)) h

/-- Characterisation of a successful `retrieve_equal_or_bigger_than`: it acts
as `retrieveAt` on an in-bounds index whose slot has at least the requested
space, and that index either holds exactly the requested space or is the
failed-search insertion point. -/
theorem retrieveEob_spec {l : List Slot} {expected claimed : Slot} {l' : List Slot}
    (h : FreeList.retrieve_equal_or_bigger_than l expected = some (claimed, l')) :
    ∃ pos, pos < l.length
      ∧ expected.space ≤ (l.getD pos ⟨0, 0⟩).space
      ∧ ((l.getD pos ⟨0, 0⟩).space = expected.space ∨ bsearch l expected.space = .error pos)
      ∧ (claimed, l') = retrieveAt l expected pos := by
  unfold FreeList.retrieve_equal_or_bigger_than at h
  cases hb : bsearch l expected.space with
  | ok pos =>
    simp only [hb] at h
    obtain ⟨hlt, hsp⟩ := bsearch_ok hb
    have h' : retrieveAt l expected pos = (claimed, l') := by simpa using h
    exact ⟨pos, hlt, Nat.le_of_eq hsp.symm, Or.inl hsp, h'.symm⟩
  | error pos =>
    simp only [hb] at h
    by_cases hlt : pos < l.length
    · rw [if_pos hlt] at h
      have h' : retrieveAt l expected pos = (claimed, l') := by simpa using h
      rcases bsearch_err hb with hp | ⟨_, hsp⟩
      · omega
      · exact ⟨pos, hlt, Nat.le_of_lt hsp, Or.inr rfl, h'.symm⟩
    · rw [if_neg hlt] at h
      exact Option.noConfusion h

/-- `retrieve_equal_or_bigger_than` misses exactly when the search fails past
the end of the list. -/
theorem retrieveEob_none_iff (l : List Slot) (expected : Slot) :
    FreeList.retrieve_equal_or_bigger_than l expected = none
      ↔ bsearch l expected.space = .error l.length := by
  constructor
  · intro h
    unfold FreeList.retrieve_equal_or_bigger_than at h
    cases hb : bsearch l expected.space with
    | ok pos =>
      simp only [hb] at h
      exact Option.noConfusion h
    | error pos =>
      simp only [hb] at h
      by_cases hlt : pos < l.length
      · rw [if_pos hlt] at h
        exact Option.noConfusion h
      · rcases bsearch_err hb with hp | hp
        · subst hp
          rfl
        · omega
  · intro h
    unfold FreeList.retrieve_equal_or_bigger_than
    simp only [h]
    rw [if_neg (Nat.lt_irrefl _)]

/-- Consuming `expected.space` bytes via `retrieveAt` removes exactly that much
space from the list's total. -/
theorem sumSpaces_retrieveAt (l : List Slot) (expected : Slot) (pos : Nat)
    (hpos : pos < l.length) (hle : expected.space ≤ (l.getD pos ⟨0, 0⟩).space) :
    expected.space + sumSpaces (retrieveAt l expected pos).2 = sumSpaces l := by
  unfold retrieveAt
  have hsplit := sumSpaces_listRemoveAt l pos hpos
  by_cases hbig : expected.space < (l.getD pos ⟨0, 0⟩).space
  · simp only [if_pos hbig]
    rw [sumSpaces_listInsertAt]
    dsimp only
    omega
  · simp only [if_neg hbig]
    omega

/-- The gap-scan counter of `new_from_index` equals the sum of the spaces it
emits (each push adds the same quantity to both). -/
theorem gapsAfter_counter (l : List Slot) :
    ∀ previous, (gapsAfter previous l).2 = sumSpaces (gapsAfter previous l).1 := by
  induction l with
  | nil => intro previous; simp [gapsAfter, sumSpaces]
  | cons current rest ih =>
    intro previous
    by_cases hc : current.cursor ≠ previous.space + previous.cursor + 1
    · simp only [gapsAfter, if_pos hc, sumSpaces, List.map_cons, List.sum_cons]
      have := ih current
      unfold sumSpaces at this
      omega
    · simp only [gapsAfter, if_neg hc]
      exact ih current

/-- `absorb` conserves total space: the anchor's accumulated space plus the
remainder equals the original anchor plus the scanned list. -/
theorem absorb_sum (l : List Slot) :
    ∀ tmp, (absorb tmp l).1.space + sumSpaces (absorb tmp l).2
      = tmp.space + sumSpaces l := by
  induction l with
  | nil => intro tmp; simp [absorb]
  | cons b rest ih =>
    intro tmp
    by_cases hb : tmp.is_neighbour_of b
    · simp only [absorb, hb, if_true]
      have hrec := ih (tmp.merge_with b)
      have hm : (tmp.merge_with b).space = tmp.space + b.space := rfl
      simp only [sumSpaces, List.map_cons, List.sum_cons]
      unfold sumSpaces at hrec
      omega
    · simp only [absorb, hb, Bool.false_eq_true, if_false]
      have hrec := ih tmp
      simp only [sumSpaces, List.map_cons, List.sum_cons]
      unfold sumSpaces at hrec
      omega

/-- `absorb` never lengthens the remainder. -/
theorem absorb_length (l : List Slot) :
    ∀ tmp, (absorb tmp l).2.length ≤ l.length := by
  induction l with
  | nil => intro tmp; simp [absorb]
  | cons b rest ih =>
    intro tmp
    by_cases hb : tmp.is_neighbour_of b
    · simp only [absorb, hb, if_true]
      exact Nat.le_trans (ih _) (Nat.le_succ _)
    · simp only [absorb, hb, Bool.false_eq_true, if_false, List.length_cons]
      exact Nat.succ_le_succ (ih tmp)

/-- The anchor loop conserves total space whenever its budget suffices. -/
theorem mergePassGo_sum : ∀ (fuel : Nat) (l : List Slot), l.length ≤ fuel →
    sumSpaces (mergePassGo fuel l) = sumSpaces l := by
  intro fuel
  induction fuel with
  | zero =>
    intro l hl
    have : l = [] := List.eq_nil_of_length_eq_zero (by omega)
    subst this
    rfl
  | succ fuel ih =>
    intro l hl
    cases l with
    | nil => rfl
    | cons a rest =>
      simp only [mergePassGo, sumSpaces, List.map_cons, List.sum_cons]
      have hlen : (absorb a rest).2.length ≤ fuel :=
        Nat.le_trans (absorb_length rest a) (by simpa using hl)
      have hrec := ih (absorb a rest).2 hlen
      have habs := absorb_sum rest a
      unfold sumSpaces at hrec habs
      omega

/-- The merge phase of `compact` conserves total space. -/
theorem mergePass_sum (l : List Slot) : sumSpaces (mergePass l) = sumSpaces l :=
  mergePassGo_sum l.length l (Nat.le_refl _)

/-- `sumSpaces` is invariant under permutation. -/
theorem sumSpaces_perm {l l' : List Slot} (h : l.Perm l') : sumSpaces l = sumSpaces l' :=
  (h.map Slot.space).sum_eq

/-- C6: `total_free_bytes` equals the sum of the member Spans' lengths for a
new FreeList and one rebuilt from occupied slots, and the equality is
preserved by release (`insert_free_space`), retrieve (`retrieve_free_space`)
and `compact`. -/
theorem c6_conservation :
    flInv FreeList.new
    ∧ (∀ used : List Slot, flInv (FreeList.new_from_index used))
    ∧ (∀ (fl : FreeList) (c s : Nat), flInv fl → flInv (fl.insert_free_space c s))
    ∧ (∀ (fl : FreeList) (n : Nat), flInv fl → flInv (fl.retrieve_free_space n).2)
    ∧ (∀ fl : FreeList, flInv fl → flInv fl.compact) := by
  refine ⟨rfl, fun used => ?_, fun fl c s h => ?_, fun fl n h => ?_, fun fl h => ?_⟩
  · unfold FreeList.new_from_index
    cases sortByCursor used with
    | nil => rfl
    | cons first rest =>
      have htail := gapsAfter_counter rest first
      by_cases hc : 0 < first.cursor
      · simp only [if_pos hc, flInv, sumSpaces, List.map_append, List.sum_append,
          List.map_cons, List.sum_cons, List.map_nil, List.sum_nil]
        unfold sumSpaces at htail
        omega
      · simp only [if_neg hc, flInv, sumSpaces, List.map_append, List.sum_append,
          List.map_nil, List.sum_nil]
        unfold sumSpaces at htail
        omega
  · unfold flInv FreeList.insert_free_space at *
    simp only [sumSpaces_listInsertAt]
    omega
  · unfold FreeList.retrieve_free_space
    cases hr : FreeList.retrieve_equal_or_bigger_than fl.list ⟨n, 0⟩ with
    | none => exact h
    | some pair =>
      obtain ⟨val, l'⟩ := pair
      obtain ⟨pos, hpos, hle, _, heq⟩ := retrieveEob_spec hr
      have hval : val = ⟨n, (fl.list.getD pos ⟨0, 0⟩).cursor⟩ := by
        have := congrArg Prod.fst heq
        simpa [retrieveAt] using this
      have hl' : l' = (retrieveAt fl.list ⟨n, 0⟩ pos).2 := congrArg Prod.snd heq
      have hsum := sumSpaces_retrieveAt fl.list ⟨n, 0⟩ pos hpos hle
      unfold flInv at h ⊢
      subst hval hl'
      dsimp only at hsum ⊢
      omega
  · unfold flInv FreeList.compact FreeList.compactList at *
    dsimp only
    have h₁ : sumSpaces (sortByCursor fl.list) = sumSpaces fl.list :=
      sumSpaces_perm (List.perm_insertionSort _ _)
    have h₂ := mergePass_sum (sortByCursor fl.list)
    have h₃ : sumSpaces (sortBySpace (mergePass (sortByCursor fl.list)))
        = sumSpaces (mergePass (sortByCursor fl.list)) :=
      sumSpaces_perm (List.perm_insertionSort _ _)
    omega

/-- C6 witness: the conservation theorem evaluated on concrete free lists. -/
theorem c6_conservation_witness :
    flInv (FreeList.new_from_index [⟨3, 4⟩])
    ∧ flInv ((FreeList.mk [⟨2, 5⟩] 2).insert_free_space 9 4)
    ∧ flInv ((FreeList.mk [⟨2, 5⟩] 2).retrieve_free_space 1).2
    ∧ flInv (FreeList.mk [⟨2, 5⟩, ⟨3, 7⟩] 5).compact :=
  ⟨c6_conservation.2.1 [⟨3, 4⟩],
   c6_conservation.2.2.1 (FreeList.mk [⟨2, 5⟩] 2) 9 4 (by decide),
   c6_conservation.2.2.2.1 (FreeList.mk [⟨2, 5⟩] 2) 1 (by decide),
   c6_conservation.2.2.2.2 (FreeList.mk [⟨2, 5⟩, ⟨3, 7⟩] 5) (by decide)⟩

/-- C4 counterexample: on the list `[{length 4, offset 0}, {length 6, offset
10}]`, sorted by the (length, offset) total order, `retrieve(5)` succeeds with
offset 10 but reinserts the split remainder `{length 1, offset 15}` at the
removal position, leaving `[{4,0},{1,15}]`, which is not sorted — the claim's
"the list is again sorted by the total order after the call" is false. -/
theorem c4_counterexample :
    List.Sorted lexSC c4fl.list
    ∧ (c4fl.retrieve_free_space 5).1 = some 10
    ∧ ¬ List.Sorted lexSC (c4fl.retrieve_free_space 5).2.list := by decide

/-- C4 (amended): on a free list sorted by the (length, offset) total order,
`retrieve(n)` fails exactly when no Span has length at least `n`; on success
it returns the offset of a Span whose length is the smallest length `≥ n` in
the list, and if that Span's length exceeds `n` the remainder
`{offset + n, length - n}` is a member of the resulting list (it is reinserted
at the removal position, which need not keep the list sorted). -/
theorem c4_retrieve_best_fit (fl : FreeList) (n : Nat) (hs : List.Sorted lexSC fl.list) :
    ((fl.retrieve_free_space n).1 = none ↔ ∀ x ∈ fl.list, x.space < n)
    ∧ (∀ off, (fl.retrieve_free_space n).1 = some off →
        ∃ sl ∈ fl.list, sl.cursor = off ∧ n ≤ sl.space
          ∧ (∀ x ∈ fl.list, n ≤ x.space → sl.space ≤ x.space)
          ∧ (n < sl.space →
              (⟨sl.space - n, sl.cursor + n⟩ : Slot) ∈ (fl.retrieve_free_space n).2.list)) := by
  have hsp : fl.list.Pairwise rSpace := by
    refine hs.imp ?_
    intro a b hab
    have hab' : a.space < b.space ∨ (a.space = b.space ∧ a.cursor ≤ b.cursor) := hab
    show a.space ≤ b.space
    omega
  cases hr : FreeList.retrieve_equal_or_bigger_than fl.list ⟨n, 0⟩ with
  | none =>
    have hmain : fl.retrieve_free_space n = (none, fl) := by
      unfold FreeList.retrieve_free_space
      rw [hr]
    have hberr : bsearch fl.list n = .error fl.list.length :=
      (retrieveEob_none_iff fl.list ⟨n, 0⟩).mp hr
    rw [hmain]
    constructor
    · constructor
      · intro _
        intro x hx
        obtain ⟨⟨i, hi⟩, hgi⟩ := List.mem_iff_get.mp hx
        have hbel := bsearch_err_below hsp hberr i hi hi
        rw [List.getD_eq_getElem fl.list ⟨0, 0⟩ hi] at hbel
        rw [← hgi]
        simpa [List.get_eq_getElem] using hbel
      · intro _
        rfl
    · intro off hoff
      exact absurd hoff (by simp)
  | some pair =>
    obtain ⟨val, l'⟩ := pair
    have hmain : fl.retrieve_free_space n
        = (some val.cursor, ⟨l', fl.total_free_space - val.space⟩) := by
      unfold FreeList.retrieve_free_space
      rw [hr]
    obtain ⟨pos, hpos, hle, hcase, heq⟩ := retrieveEob_spec hr
    have hle' : n ≤ (fl.list.getD pos ⟨0, 0⟩).space := hle
    have hval : val = ⟨n, (fl.list.getD pos ⟨0, 0⟩).cursor⟩ := by
      have := congrArg Prod.fst heq
      simpa [retrieveAt] using this
    have hl' : l' = (retrieveAt fl.list ⟨n, 0⟩ pos).2 := congrArg Prod.snd heq
    have hmem : fl.list.getD pos ⟨0, 0⟩ ∈ fl.list := by
      rw [List.getD_eq_getElem fl.list ⟨0, 0⟩ hpos]
      exact List.getElem_mem hpos
    rw [hmain]
    constructor
    · constructor
      · intro habs
        exact absurd habs (by simp)
      · intro hall
        exfalso
        have := hall _ hmem
        omega
    · intro off hoff
      have hoff' : val.cursor = off := by simpa using hoff
      refine ⟨fl.list.getD pos ⟨0, 0⟩, hmem, ?_, hle', ?_, ?_⟩
      · rw [← hoff', hval]
      · intro x hx hxn
        rcases hcase with hexact | herr
        · have hexact' : (fl.list.getD pos ⟨0, 0⟩).space = n := hexact
          omega
        · have herr' : bsearch fl.list n = .error pos := herr
          obtain ⟨⟨i, hi⟩, hgi⟩ := List.mem_iff_get.mp hx
          by_cases hip : i < pos
          · exfalso
            have hbel := bsearch_err_below hsp herr' i hip hi
            rw [List.getD_eq_getElem fl.list ⟨0, 0⟩ hi] at hbel
            rw [← hgi] at hxn
            simp only [List.get_eq_getElem] at hxn
            omega
          · rcases Nat.eq_or_lt_of_le (Nat.le_of_not_lt hip) with hip' | hip'
            · subst hip'
              rw [List.getD_eq_getElem fl.list ⟨0, 0⟩ hpos, ← hgi]
              simp [List.get_eq_getElem]
            · have hrel := List.pairwise_iff_get.mp hsp ⟨pos, hpos⟩ ⟨i, hi⟩ hip'
              have hrel' : (fl.list.get ⟨pos, hpos⟩).space ≤ (fl.list.get ⟨i, hi⟩).space := hrel
              rw [List.getD_eq_getElem fl.list ⟨0, 0⟩ hpos, ← hgi]
              simp only [List.get_eq_getElem] at hrel' ⊢
              exact hrel'
      · intro hbig
        have hbig' : (⟨n, 0⟩ : Slot).space < (fl.list.getD pos ⟨0, 0⟩).space := hbig
        rw [hl']
        unfold retrieveAt
        simp only [if_pos hbig']
        exact ((listInsertAt_perm _ _ _).mem_iff).mpr (List.mem_cons_self _ _)

/-- Propositional characterisation of `Slot::is_neighbour_of`. -/
theorem isNb_iff (a b : Slot) : a.is_neighbour_of b = true ↔
    ((0 < a.cursor ∧ a.cursor = b.cursor + b.space)
      ∨ (0 < b.cursor ∧ b.cursor = a.cursor + a.space)) := by
  simp [Slot.is_neighbour_of]

/-- `is_neighbour_of` is symmetric. -/
theorem isNb_symm (a b : Slot) : a.is_neighbour_of b = b.is_neighbour_of a := by
  simp only [Slot.is_neighbour_of]
  exact Bool.or_comm _ _

/-- The anchor of an `absorb` run keeps its cursor (merging takes the minimum
and everything scanned starts at or after the anchor). -/
theorem absorb_cursor (l : List Slot) : ∀ (tmp : Slot),
    (∀ b ∈ l, tmp.cursor ≤ b.cursor) → (absorb tmp l).1.cursor = tmp.cursor := by
  induction l with
  | nil => intro tmp _; rfl
  | cons b rest ih =>
    intro tmp hmin
    have hcb : tmp.cursor ≤ b.cursor := hmin b (List.mem_cons_self _ _)
    have hminrest : ∀ y ∈ rest, tmp.cursor ≤ y.cursor :=
      fun y hy => hmin y (List.mem_cons_of_mem _ hy)
    by_cases hnb : tmp.is_neighbour_of b
    · simp only [absorb, hnb, if_true]
      have hc' : (tmp.merge_with b).cursor = tmp.cursor := Nat.min_eq_left hcb
      have hmin' : ∀ y ∈ rest, (tmp.merge_with b).cursor ≤ y.cursor := by
        intro y hy
        rw [hc']
        exact hminrest y hy
      rw [ih (tmp.merge_with b) hmin', hc']
    · simp only [absorb, hnb, Bool.false_eq_true, if_false]
      exact ih tmp hminrest

/-- The end offset of an `absorb` run never shrinks. -/
theorem absorb_stop_le (l : List Slot) : ∀ (tmp : Slot),
    (∀ b ∈ l, tmp.cursor ≤ b.cursor) →
    tmp.cursor + tmp.space ≤ (absorb tmp l).1.cursor + (absorb tmp l).1.space := by
  induction l with
  | nil => intro tmp _; exact Nat.le_refl _
  | cons b rest ih =>
    intro tmp hmin
    have hcb : tmp.cursor ≤ b.cursor := hmin b (List.mem_cons_self _ _)
    have hminrest : ∀ y ∈ rest, tmp.cursor ≤ y.cursor :=
      fun y hy => hmin y (List.mem_cons_of_mem _ hy)
    by_cases hnb : tmp.is_neighbour_of b
    · simp only [absorb, hnb, if_true]
      have hc' : (tmp.merge_with b).cursor = tmp.cursor := Nat.min_eq_left hcb
      have hsp : (tmp.merge_with b).space = tmp.space + b.space := rfl
      have hmin' : ∀ y ∈ rest, (tmp.merge_with b).cursor ≤ y.cursor := by
        intro y hy
        rw [hc']
        exact hminrest y hy
      have := ih (tmp.merge_with b) hmin'
      omega
    · simp only [absorb, hnb, Bool.false_eq_true, if_false]
      exact ih tmp hminrest

/-- The remainder of an `absorb` run is a sublist of the scanned list. -/
theorem absorb_sublist (l : List Slot) : ∀ (tmp : Slot), (absorb tmp l).2.Sublist l := by
  induction l with
  | nil => intro tmp; exact List.Sublist.refl _
  | cons b rest ih =>
    intro tmp
    by_cases hnb : tmp.is_neighbour_of b
    · simp only [absorb, hnb, if_true]
      exact (ih (tmp.merge_with b)).cons b
    · simp only [absorb, hnb, Bool.false_eq_true, if_false]
      exact (ih tmp).cons₂ b

/-- If an `absorb` run grows the anchor's end at all, some scanned element
starts exactly at the anchor's original end. -/
theorem absorb_stop_source (l : List Slot) : ∀ (tmp : Slot),
    (∀ b ∈ l, tmp.cursor ≤ b.cursor) →
    ((absorb tmp l).1.cursor + (absorb tmp l).1.space = tmp.cursor + tmp.space
      ∨ ∃ e ∈ l, e.cursor = tmp.cursor + tmp.space) := by
  induction l with
  | nil => intro tmp _; exact Or.inl rfl
  | cons b rest ih =>
    intro tmp hmin
    have hcb : tmp.cursor ≤ b.cursor := hmin b (List.mem_cons_self _ _)
    have hminrest : ∀ y ∈ rest, tmp.cursor ≤ y.cursor :=
      fun y hy => hmin y (List.mem_cons_of_mem _ hy)
    by_cases hnb : tmp.is_neighbour_of b
    · simp only [absorb, hnb, if_true]
      have hor := (isNb_iff tmp b).mp hnb
      have hc' : (tmp.merge_with b).cursor = tmp.cursor := Nat.min_eq_left hcb
      have hsp : (tmp.merge_with b).space = tmp.space + b.space := rfl
      have hmin' : ∀ y ∈ rest, (tmp.merge_with b).cursor ≤ y.cursor := by
        intro y hy
        rw [hc']
        exact hminrest y hy
      by_cases hb2 : b.cursor = tmp.cursor + tmp.space
      · exact Or.inr ⟨b, List.mem_cons_self _ _, hb2⟩
      · have h1 : 0 < tmp.cursor ∧ tmp.cursor = b.cursor + b.space := by
          rcases hor with h | h
          · exact h
          · exact absurd h.2 hb2
        have hbs : b.space = 0 := by omega
        rcases ih (tmp.merge_with b) hmin' with hG | ⟨e, he, hecur⟩
        · exact Or.inl (by omega)
        · exact Or.inr ⟨e, List.mem_cons_of_mem _ he, by omega⟩
    · simp only [absorb, hnb, Bool.false_eq_true, if_false]
      rcases ih tmp hminrest with hG | ⟨e, he, hecur⟩
      · exact Or.inl hG
      · exact Or.inr ⟨e, List.mem_cons_of_mem _ he, hecur⟩

/-- The end offset of an `absorb` run equals the end offset of the anchor or
of some scanned element. -/
theorem absorb_stop_mem (l : List Slot) : ∀ (tmp : Slot),
    (∀ b ∈ l, tmp.cursor ≤ b.cursor) →
    ∃ e ∈ tmp :: l,
      (absorb tmp l).1.cursor + (absorb tmp l).1.space = e.cursor + e.space := by
  induction l with
  | nil => intro tmp _; exact ⟨tmp, List.mem_cons_self _ _, rfl⟩
  | cons b rest ih =>
    intro tmp hmin
    have hcb : tmp.cursor ≤ b.cursor := hmin b (List.mem_cons_self _ _)
    have hminrest : ∀ y ∈ rest, tmp.cursor ≤ y.cursor :=
      fun y hy => hmin y (List.mem_cons_of_mem _ hy)
    by_cases hnb : tmp.is_neighbour_of b
    · simp only [absorb, hnb, if_true]
      have hor := (isNb_iff tmp b).mp hnb
      have hc' : (tmp.merge_with b).cursor = tmp.cursor := Nat.min_eq_left hcb
      have hsp : (tmp.merge_with b).space = tmp.space + b.space := rfl
      have hmin' : ∀ y ∈ rest, (tmp.merge_with b).cursor ≤ y.cursor := by
        intro y hy
        rw [hc']
        exact hminrest y hy
      obtain ⟨e, he, hstop⟩ := ih (tmp.merge_with b) hmin'
      rcases List.mem_cons.mp he with rfl | he'
      · by_cases hb2 : b.cursor = tmp.cursor + tmp.space
        · exact ⟨b, List.mem_cons_of_mem _ (List.mem_cons_self _ _), by omega⟩
        · have h1 : 0 < tmp.cursor ∧ tmp.cursor = b.cursor + b.space := by
            rcases hor with h | h
            · exact h
            · exact absurd h.2 hb2
          have hbs : b.space = 0 := by omega
          exact ⟨tmp, List.mem_cons_self _ _, by omega⟩
      · exact ⟨e, List.mem_cons_of_mem _ (List.mem_cons_of_mem _ he'), hstop⟩
    · simp only [absorb, hnb, Bool.false_eq_true, if_false]
      obtain ⟨e, he, hstop⟩ := ih tmp hminrest
      rcases List.mem_cons.mp he with rfl | he'
      · exact ⟨e, List.mem_cons_self _ _, hstop⟩
      · exact ⟨e, List.mem_cons_of_mem _ (List.mem_cons_of_mem _ he'), hstop⟩

/-- No element left unabsorbed by an `absorb` run over a cursor-sorted list
starts (at a positive offset) exactly at the final merged end: such an element
would have been absorbed. -/
theorem absorb_rem_not_after (l : List Slot) : ∀ (tmp : Slot),
    l.Pairwise rCursor → (∀ b ∈ l, tmp.cursor ≤ b.cursor) →
    ∀ x ∈ (absorb tmp l).2,
      ¬(0 < x.cursor ∧ x.cursor = (absorb tmp l).1.cursor + (absorb tmp l).1.space) := by
  induction l with
  | nil => intro tmp _ _ x hx; simp [absorb] at hx
  | cons b rest ih =>
    intro tmp hsort hmin x hx
    obtain ⟨hhead, htail⟩ := List.pairwise_cons.mp hsort
    have hcb : tmp.cursor ≤ b.cursor := hmin b (List.mem_cons_self _ _)
    have hminrest : ∀ y ∈ rest, tmp.cursor ≤ y.cursor :=
      fun y hy => hmin y (List.mem_cons_of_mem _ hy)
    by_cases hnb : tmp.is_neighbour_of b
    · simp only [absorb, hnb, if_true] at hx ⊢
      have hc' : (tmp.merge_with b).cursor = tmp.cursor := Nat.min_eq_left hcb
      have hmin' : ∀ y ∈ rest, (tmp.merge_with b).cursor ≤ y.cursor := by
        intro y hy
        rw [hc']
        exact hminrest y hy
      exact ih (tmp.merge_with b) htail hmin' x hx
    · simp only [absorb, hnb, Bool.false_eq_true, if_false] at hx ⊢
      rcases List.mem_cons.mp hx with rfl | hx'
      · rintro ⟨hpos, heq⟩
        have hnb' : ¬((0 < tmp.cursor ∧ tmp.cursor = x.cursor + x.space)
            ∨ (0 < x.cursor ∧ x.cursor = tmp.cursor + tmp.space)) := by
          intro hcon
          exact hnb ((isNb_iff tmp x).mpr hcon)
        have hne : x.cursor ≠ tmp.cursor + tmp.space :=
          fun hcon => hnb' (Or.inr ⟨hpos, hcon⟩)
        rcases absorb_stop_source rest tmp hminrest with hG | ⟨e, he, hecur⟩
        · exact hne (by omega)
        · have h1 : x.cursor ≤ e.cursor := hhead e he
          have h2 := absorb_stop_le rest tmp hminrest
          exact hne (by omega)
      · exact ih tmp htail hminrest x hx'

/-- The anchor of an `absorb` run (when it starts at a positive offset) never
sits exactly at the end of an element left unabsorbed: that element would have
been absorbed as a left neighbour. -/
theorem absorb_rem_not_before (l : List Slot) : ∀ (tmp : Slot),
    (∀ b ∈ l, tmp.cursor ≤ b.cursor) →
    ∀ x ∈ (absorb tmp l).2, 0 < tmp.cursor → tmp.cursor ≠ x.cursor + x.space := by
  induction l with
  | nil => intro tmp _ x hx; simp [absorb] at hx
  | cons b rest ih =>
    intro tmp hmin x hx
    have hcb : tmp.cursor ≤ b.cursor := hmin b (List.mem_cons_self _ _)
    have hminrest : ∀ y ∈ rest, tmp.cursor ≤ y.cursor :=
      fun y hy => hmin y (List.mem_cons_of_mem _ hy)
    by_cases hnb : tmp.is_neighbour_of b
    · simp only [absorb, hnb, if_true] at hx ⊢
      have hc' : (tmp.merge_with b).cursor = tmp.cursor := Nat.min_eq_left hcb
      have hmin' : ∀ y ∈ rest, (tmp.merge_with b).cursor ≤ y.cursor := by
        intro y hy
        rw [hc']
        exact hminrest y hy
      have := ih (tmp.merge_with b) hmin' x hx
      rw [hc'] at this
      exact this
    · simp only [absorb, hnb, Bool.false_eq_true, if_false] at hx ⊢
      rcases List.mem_cons.mp hx with rfl | hx'
      · intro hpos hcon
        exact hnb ((isNb_iff tmp x).mpr (Or.inl ⟨hpos, hcon⟩))
      · exact ih tmp hminrest x hx'

/-- The merge phase on a cursor-sorted list: the output is cursor-sorted,
every output slot inherits its cursor and its end offset from input slots, and
no two output slots are neighbours of each other. -/
theorem mergePassGo_spec : ∀ (fuel : Nat) (l : List Slot), l.length ≤ fuel →
    l.Pairwise rCursor →
    (mergePassGo fuel l).Pairwise rCursor
    ∧ (∀ u ∈ mergePassGo fuel l,
        (∃ b ∈ l, u.cursor = b.cursor)
        ∧ (∃ b ∈ l, u.cursor + u.space = b.cursor + b.space))
    ∧ (mergePassGo fuel l).Pairwise (fun a b => a.is_neighbour_of b = false) := by
  intro fuel
  induction fuel with
  | zero =>
    intro l hl _
    have : l = [] := List.eq_nil_of_length_eq_zero (by omega)
    subst this
    exact ⟨List.Pairwise.nil, by simp [mergePassGo], List.Pairwise.nil⟩
  | succ fuel ih =>
    intro l hl hsort
    cases l with
    | nil => exact ⟨List.Pairwise.nil, by simp [mergePassGo], List.Pairwise.nil⟩
    | cons a rest =>
      obtain ⟨hhead, htail⟩ := List.pairwise_cons.mp hsort
      have hmin : ∀ b ∈ rest, a.cursor ≤ b.cursor := hhead
      have hsub := absorb_sublist rest a
      have hrsort : (absorb a rest).2.Pairwise rCursor := htail.sublist hsub
      have hrlen : (absorb a rest).2.length ≤ fuel :=
        Nat.le_trans (absorb_length rest a) (by simpa using hl)
      obtain ⟨ih_sorted, ih_origin, ih_nonb⟩ := ih (absorb a rest).2 hrlen hrsort
      have hc := absorb_cursor rest a hmin
      have hK1 := absorb_rem_not_after rest a htail hmin
      have hK2 := absorb_rem_not_before rest a hmin
      have hunf : mergePassGo (fuel + 1) (a :: rest)
          = (absorb a rest).1 :: mergePassGo fuel (absorb a rest).2 := rfl
      rw [hunf]
      refine ⟨?_, ?_, ?_⟩
      · refine List.Pairwise.cons ?_ ih_sorted
        intro u hu
        obtain ⟨⟨b₁, hb₁, hcur⟩, _⟩ := ih_origin u hu
        show (absorb a rest).1.cursor ≤ u.cursor
        rw [hc, hcur]
        exact hmin b₁ (hsub.subset hb₁)
      · intro u hu
        rcases List.mem_cons.mp hu with rfl | hu'
        · refine ⟨⟨a, List.mem_cons_self _ _, hc⟩, ?_⟩
          exact absorb_stop_mem rest a hmin
        · obtain ⟨⟨b₁, hb₁, h₁⟩, ⟨b₂, hb₂, h₂⟩⟩ := ih_origin u hu'
          exact ⟨⟨b₁, List.mem_cons_of_mem _ (hsub.subset hb₁), h₁⟩,
            ⟨b₂, List.mem_cons_of_mem _ (hsub.subset hb₂), h₂⟩⟩
      · refine List.Pairwise.cons ?_ ih_nonb
        intro u hu
        obtain ⟨⟨b₁, hb₁, hcur⟩, ⟨b₂, hb₂, hstp⟩⟩ := ih_origin u hu
        have hnot : ¬((absorb a rest).1.is_neighbour_of u = true) := by
          rw [isNb_iff]
          rintro (⟨hpos, hceq⟩ | ⟨hpos, hceq⟩)
          · have hk := hK2 b₂ hb₂
            rw [hc] at hpos hceq
            exact (hk hpos) (by omega)
          · have hk := hK1 b₁ hb₁
            exact hk ⟨by omega, by omega⟩
        simpa using hnot

/-- An `absorb` run with no adjacent element scans without effect. -/
theorem absorb_of_no_neighbour (l : List Slot) : ∀ (tmp : Slot),
    (∀ b ∈ l, tmp.is_neighbour_of b = false) → absorb tmp l = (tmp, l) := by
  induction l with
  | nil => intro tmp _; rfl
  | cons b rest ih =>
    intro tmp h
    have hb : tmp.is_neighbour_of b = false := h b (List.mem_cons_self _ _)
    simp only [absorb, hb, Bool.false_eq_true, if_false]
    rw [ih tmp (fun x hx => h x (List.mem_cons_of_mem _ hx))]

/-- The merge phase is the identity on a list whose elements are pairwise
non-neighbours. -/
theorem mergePassGo_of_pairwise : ∀ (fuel : Nat) (l : List Slot), l.length ≤ fuel →
    l.Pairwise (fun a b => a.is_neighbour_of b = false) → mergePassGo fuel l = l := by
  intro fuel
  induction fuel with
  | zero =>
    intro l hl _
    have : l = [] := List.eq_nil_of_length_eq_zero (by omega)
    subst this
    rfl
  | succ fuel ih =>
    intro l hl hpw
    cases l with
    | nil => rfl
    | cons a rest =>
      obtain ⟨hhead, htail⟩ := List.pairwise_cons.mp hpw
      have habs : absorb a rest = (a, rest) := absorb_of_no_neighbour rest a hhead
      show (absorb a rest).1 :: mergePassGo fuel (absorb a rest).2 = a :: rest
      rw [habs]
      dsimp only
      rw [ih rest (by simpa using hl) htail]

/-- `mergePass` specification on cursor-sorted lists (budget instantiated). -/
theorem mergePass_spec (l : List Slot) (hl : l.Pairwise rCursor) :
    (mergePass l).Pairwise rCursor
    ∧ (∀ u ∈ mergePass l,
        (∃ b ∈ l, u.cursor = b.cursor)
        ∧ (∃ b ∈ l, u.cursor + u.space = b.cursor + b.space))
    ∧ (mergePass l).Pairwise (fun a b => a.is_neighbour_of b = false) :=
  mergePassGo_spec l.length l (Nat.le_refl _) hl

/-- `mergePass` is the identity on pairwise non-neighbour lists. -/
theorem mergePass_of_pairwise (l : List Slot)
    (hl : l.Pairwise (fun a b => a.is_neighbour_of b = false)) : mergePass l = l :=
  mergePassGo_of_pairwise l.length l (Nat.le_refl _) hl

/-- Inserting (stably, by space) into a (length, offset)-sorted list whose
members all start at or after the inserted slot keeps the list
(length, offset)-sorted: the stable tie-break coincides with the offset
order. -/
theorem orderedInsert_rSpace_lexSC (a : Slot) :
    ∀ (u : List Slot), List.Sorted lexSC u → (∀ b ∈ u, a.cursor ≤ b.cursor) →
    List.Sorted lexSC (List.orderedInsert rSpace a u) := by
  intro u
  induction u with
  | nil =>
    intro _ _
    simp [List.orderedInsert, List.Sorted]
  | cons b t ih =>
    intro hu ha
    obtain ⟨hhead, htail⟩ := List.pairwise_cons.mp hu
    simp only [List.orderedInsert]
    by_cases hle : rSpace a b
    · rw [if_pos hle]
      refine List.Pairwise.cons ?_ hu
      intro x hx
      rcases List.mem_cons.mp hx with rfl | hxt
      · have hab := ha x (List.mem_cons_self _ _)
        have hle' : a.space ≤ x.space := hle
        show a.space < x.space ∨ (a.space = x.space ∧ a.cursor ≤ x.cursor)
        omega
      · have hbx' : b.space < x.space ∨ (b.space = x.space ∧ b.cursor ≤ x.cursor) :=
          hhead x hxt
        have hax := ha x (List.mem_cons_of_mem _ hxt)
        have hle' : a.space ≤ b.space := hle
        show a.space < x.space ∨ (a.space = x.space ∧ a.cursor ≤ x.cursor)
        omega
    · rw [if_neg hle]
      have hlt : b.space < a.space := by
        have h' : ¬(a.space ≤ b.space) := hle
        omega
      refine List.Pairwise.cons ?_
        (ih htail (fun x hx => ha x (List.mem_cons_of_mem _ hx)))
      intro x hx
      rcases (List.mem_orderedInsert rSpace).mp hx with rfl | hxt
      · show b.space < x.space ∨ (b.space = x.space ∧ b.cursor ≤ x.cursor)
        omega
      · exact hhead x hxt

/-- Stable space-sort of a cursor-sorted list is (length, offset)-sorted. -/
theorem sortBySpace_lexSC (l : List Slot) (hl : l.Pairwise rCursor) :
    List.Sorted lexSC (sortBySpace l) := by
  induction l with
  | nil => exact List.Pairwise.nil
  | cons a t ih =>
    obtain ⟨hhead, htail⟩ := List.pairwise_cons.mp hl
    have hmem : ∀ b ∈ List.insertionSort rSpace t, a.cursor ≤ b.cursor := by
      intro b hb
      exact hhead b ((List.perm_insertionSort rSpace t).mem_iff.mp hb)
    show List.Sorted lexSC (List.orderedInsert rSpace a (List.insertionSort rSpace t))
    exact orderedInsert_rSpace_lexSC a _ (ih htail) hmem

/-- Inserting (stably, by cursor) into an (offset, length)-sorted list that
the inserted slot precedes in the (length, offset) order keeps the list
(offset, length)-sorted. -/
theorem orderedInsert_rCursor_lexCS (a : Slot) :
    ∀ (u : List Slot), List.Sorted lexCS u → (∀ b ∈ u, lexSC a b) →
    List.Sorted lexCS (List.orderedInsert rCursor a u) := by
  intro u
  induction u with
  | nil =>
    intro _ _
    simp [List.orderedInsert, List.Sorted]
  | cons b t ih =>
    intro hu ha
    obtain ⟨hhead, htail⟩ := List.pairwise_cons.mp hu
    simp only [List.orderedInsert]
    by_cases hle : rCursor a b
    · rw [if_pos hle]
      refine List.Pairwise.cons ?_ hu
      intro x hx
      rcases List.mem_cons.mp hx with rfl | hxt
      · have hax' : a.space < x.space ∨ (a.space = x.space ∧ a.cursor ≤ x.cursor) :=
          ha x (List.mem_cons_self _ _)
        have hle' : a.cursor ≤ x.cursor := hle
        show a.cursor < x.cursor ∨ (a.cursor = x.cursor ∧ a.space ≤ x.space)
        omega
      · have hbx' : b.cursor < x.cursor ∨ (b.cursor = x.cursor ∧ b.space ≤ x.space) :=
          hhead x hxt
        have hax' : a.space < x.space ∨ (a.space = x.space ∧ a.cursor ≤ x.cursor) :=
          ha x (List.mem_cons_of_mem _ hxt)
        have hle' : a.cursor ≤ b.cursor := hle
        show a.cursor < x.cursor ∨ (a.cursor = x.cursor ∧ a.space ≤ x.space)
        omega
    · rw [if_neg hle]
      have hlt : b.cursor < a.cursor := by
        have h' : ¬(a.cursor ≤ b.cursor) := hle
        omega
      refine List.Pairwise.cons ?_
        (ih htail (fun x hx => ha x (List.mem_cons_of_mem _ hx)))
      intro x hx
      rcases (List.mem_orderedInsert rCursor).mp hx with rfl | hxt
      · show b.cursor < x.cursor ∨ (b.cursor = x.cursor ∧ b.space ≤ x.space)
        omega
      · exact hhead x hxt

/-- Stable cursor-sort of a (length, offset)-sorted list is (offset, length)-
sorted. -/
theorem sortByCursor_lexCS (u : List Slot) (hu : List.Sorted lexSC u) :
    List.Sorted lexCS (sortByCursor u) := by
  induction u with
  | nil => exact List.Pairwise.nil
  | cons a t ih =>
    obtain ⟨hhead, htail⟩ := List.pairwise_cons.mp hu
    have hmem : ∀ b ∈ List.insertionSort rCursor t, lexSC a b := by
      intro b hb
      exact hhead b ((List.perm_insertionSort rCursor t).mem_iff.mp hb)
    show List.Sorted lexCS (List.orderedInsert rCursor a (List.insertionSort rCursor t))
    exact orderedInsert_rCursor_lexCS a _ (ih htail) hmem

/-- One `compact` pass is a fixed point of the list-level pipeline: the merge
phase leaves no neighbours, the second merge phase is therefore the identity,
and the re-sorts reproduce the same stable (length, offset) order. -/
theorem compactList_compactList (l : List Slot) :
    FreeList.compactList (FreeList.compactList l) = FreeList.compactList l := by
  unfold FreeList.compactList
  have hsymm : ∀ {x y : Slot}, (fun a b : Slot => a.is_neighbour_of b = false) x y →
      (fun a b : Slot => a.is_neighbour_of b = false) y x := by
    intro x y h
    simp only at h ⊢
    rw [isNb_symm]
    exact h
  have hsc : (sortByCursor l).Pairwise rCursor := List.sorted_insertionSort rCursor l
  obtain ⟨hm_sorted, _, hm_nonb⟩ := mergePass_spec (sortByCursor l) hsc
  have hu_lex : List.Sorted lexSC (sortBySpace (mergePass (sortByCursor l))) :=
    sortBySpace_lexSC _ hm_sorted
  have hu_perm : (sortBySpace (mergePass (sortByCursor l))).Perm
      (mergePass (sortByCursor l)) := List.perm_insertionSort _ _
  have hu_nonb := (List.Perm.pairwise_iff hsymm hu_perm).mpr hm_nonb
  have hv_perm : (sortByCursor (sortBySpace (mergePass (sortByCursor l)))).Perm
      (sortBySpace (mergePass (sortByCursor l))) := List.perm_insertionSort _ _
  have hv_nonb := (List.Perm.pairwise_iff hsymm hv_perm).mpr hu_nonb
  have hmp := mergePass_of_pairwise _ hv_nonb
  have hv_lexCS := sortByCursor_lexCS _ hu_lex
  have hv_rCursor : (sortByCursor (sortBySpace (mergePass (sortByCursor l)))).Pairwise
      rCursor := by
    refine hv_lexCS.imp ?_
    intro a b hab
    have hab' : a.cursor < b.cursor ∨ (a.cursor = b.cursor ∧ a.space ≤ b.space) := hab
    show a.cursor ≤ b.cursor
    omega
  have hw_lex : List.Sorted lexSC
      (sortBySpace (sortByCursor (sortBySpace (mergePass (sortByCursor l))))) :=
    sortBySpace_lexSC _ hv_rCursor
  have hw_perm : (sortBySpace (sortByCursor (sortBySpace (mergePass (sortByCursor l))))).Perm
      (sortBySpace (mergePass (sortByCursor l))) :=
    (List.perm_insertionSort _ _).trans hv_perm
  rw [hmp]
  exact List.eq_of_perm_of_sorted hw_perm hw_lex hu_lex

/-- C9: applying `compact` twice yields exactly the same free list (same Spans
in the same order, same counter) as applying it once. -/
theorem c9_compact_idempotent (fl : FreeList) : fl.compact.compact = fl.compact := by
  unfold FreeList.compact
  dsimp only
  rw [compactList_compactList]

/-- C4 witness: the best-fit theorem evaluated on the sorted two-span list of
the counterexample. -/
theorem c4_retrieve_witness :
    ((c4fl.retrieve_free_space 5).1 = none ↔ ∀ x ∈ c4fl.list, x.space < 5)
    ∧ (∀ off, (c4fl.retrieve_free_space 5).1 = some off →
        ∃ sl ∈ c4fl.list, sl.cursor = off ∧ 5 ≤ sl.space
          ∧ (∀ x ∈ c4fl.list, 5 ≤ x.space → sl.space ≤ x.space)
          ∧ (5 < sl.space →
              (⟨sl.space - 5, sl.cursor + 5⟩ : Slot) ∈ (c4fl.retrieve_free_space 5).2.list)) :=
  c4_retrieve_best_fit c4fl 5 (by decide)
